import Mathlib

set_option maxRecDepth 100000

/-!
Shallow embedding of `analyze_corpus.py`, a distant-reading pipeline for
Project Gutenberg texts.  Raw documents, tokens and sentences are modelled as
`List Char`; floating-point scores are modelled as rationals.  The external
linguistic resources (NLTK tokenizers and lemmatizer, the stop-word list, the
VADER polarity model, numpy's standard deviation and the sklearn LDA fit) are
not part of this repository; they are abstracted as explicit parameters so
that every repository-owned computation stays concrete and executable.
-/

/-- Python-style whitespace predicate (`str.strip`, regex `\s`): space, tab,
newline, carriage return, vertical tab and form feed. -/
def pyIsSpace (c : Char) : Bool :=
  c == ' ' || c == '\t' || c == '\n' || c == '\r' || c == '\x0b' || c == '\x0c'

/-- Python `str.strip()`: drop whitespace from both ends. -/
def pyStrip (l : List Char) : List Char :=
  ((l.dropWhile pyIsSpace).reverse.dropWhile pyIsSpace).reverse

/-- Python `str.lower()` (ASCII model of Unicode lowercasing). -/
def listLower (l : List Char) : List Char := l.map Char.toLower

/-- Python slicing `s[a:b]` for non-negative bounds. -/
def pySlice (l : List Char) (a b : Nat) : List Char := (l.drop a).take (b - a)

/-- Auxiliary walk for `findSub`, tracking the current index. -/
def findSubAux (pat : List Char) : List Char → Nat → Option Nat
  | [], i => if pat.isEmpty then some i else none
  | l@(_ :: rest), i =>
    if pat.isPrefixOf l then some i else findSubAux pat rest (i + 1)

/-- Python `str.find(pat)`: index of the first occurrence of `pat`, `none`
standing for Python's `-1`. -/
def findSub (pat raw : List Char) : Option Nat := findSubAux pat raw 0

/-- Auxiliary walk for `findCharFrom`. -/
def findCharAux (c : Char) : List Char → Nat → Option Nat
  | [], _ => none
  | x :: rest, i => if x == c then some i else findCharAux c rest (i + 1)

/-- Python `str.find(c, start)`: first index `≥ start` holding char `c`. -/
def findCharFrom (raw : List Char) (c : Char) (start : Nat) : Option Nat :=
  (findCharAux c (raw.drop start) 0).map (· + start)

/-- Literal start marker from `_extract_body`. -/
def startMarker : List Char := "*** START OF THE PROJECT GUTENBERG EBOOK".toList

/-- Literal end marker from `_extract_body`. -/
def endMarker : List Char := "*** END OF THE PROJECT GUTENBERG EBOOK".toList

/-- Byte-order mark character. -/
def bomChar : Char := '﻿'

/-- Python `str.lstrip('﻿')`: drop every leading byte-order mark. -/
def stripBom (l : List Char) : List Char := l.dropWhile (· == bomChar)

/-- Embedding of `ProjectGutenbergText._extract_body`: slice from the end of the start
marker's line to the start of the end marker, strip whitespace, then strip
leading BOMs; empty when either marker is missing.  When no newline follows
the start marker, Python's `find('\n', start_idx)` yields `-1` and the
`+ 1` restarts the slice at index `0`; the `none ⇒ 0` branch mirrors that. -/
def extract_body (raw : List Char) : List Char :=
  match findSub startMarker raw, findSub endMarker raw with
  | some s, some e =>
    let s2 : Nat :=
      match findCharFrom raw '\n' s with
      | some k => k + 1
      | none => 0
    stripBom (pyStrip (pySlice raw s2 e))
  | _, _ => []

/-- Text strictly between positions `a` and `b` of a document (the claim's
"everything strictly between"). -/
def textBetween (raw : List Char) (a b : Nat) : List Char := (raw.take b).drop a

/-- Claim C1's reading of "the end of the start-marker's line": the position
after the newline terminating that line, or the end of the document when the
line never ends. -/
def lineEndPerClaim (raw : List Char) (s : Nat) : Nat :=
  match findCharFrom raw '\n' s with
  | some k => k + 1
  | none => raw.length

/-- Body extraction exactly as claim C1 words it. -/
def body_per_claim (raw : List Char) : List Char :=
  match findSub startMarker raw, findSub endMarker raw with
  | some s, some e => stripBom (pyStrip (textBetween raw (lineEndPerClaim raw s) e))
  | _, _ => []

/-- Amended reading: when no newline follows the start marker the slice
restarts at the beginning of the document, as the code does. -/
def lineEndAmended (raw : List Char) (s : Nat) : Nat :=
  match findCharFrom raw '\n' s with
  | some k => k + 1
  | none => 0

/-- Body extraction as amended claim C1 words it. -/
def body_amended (raw : List Char) : List Char :=
  match findSub startMarker raw, findSub endMarker raw with
  | some s, some e => stripBom (pyStrip (textBetween raw (lineEndAmended raw s) e))
  | _, _ => []

/-- Terminator `(?:\[|$)` of the release-date pattern: a `[`, the end of the
input, or the position just before a final newline (Python `$` without
`re.MULTILINE` matches only there, not at inner line ends). -/
def isStop (raw : List Char) (q : Nat) : Bool :=
  (decide (q < raw.length) && raw.getD q ' ' == '[') ||
  decide (q = raw.length) ||
  (decide (q + 1 = raw.length) && raw.getD q ' ' == '\n')

/-- Lazy `(.+?)` scan: having consumed the character at `p`, look for the
first position where the terminator matches, never consuming a newline. -/
def scanStop (raw : List Char) (p : Nat) : Nat → Option Nat
  | 0 => none
  | fuel + 1 =>
    if decide (p < raw.length) && !(raw.getD p ' ' == '\n') then
      if isStop raw (p + 1) then some (p + 1) else scanStop raw (p + 1) fuel
    else none

/-- Greedy `\s*` backtracking: try the whole whitespace run first, then ever
shorter runs, pairing each with the lazy scan; returns the group bounds. -/
def tryWs (raw : List Char) (j0 : Nat) : Nat → Option (Nat × Nat)
  | 0 =>
    match scanStop raw j0 (raw.length + 1 - j0) with
    | some p => some (j0, p)
    | none => none
  | w + 1 =>
    match scanStop raw (j0 + (w + 1)) (raw.length + 1 - (j0 + (w + 1))) with
    | some p => some (j0 + (w + 1), p)
    | none => tryWs raw j0 w

/-- Label of the release-date pattern. -/
def rdLabel : List Char := "Release date:".toList

/-- Attempt of `Release date:\s*(.+?)(?:\[|$)` anchored at position `i`;
yields group 1. -/
def matchRDAt (raw : List Char) (i : Nat) : Option (List Char) :=
  if rdLabel.isPrefixOf (raw.drop i) then
    let j0 := i + rdLabel.length
    let maxW := ((raw.drop j0).takeWhile pyIsSpace).length
    (tryWs raw j0 maxW).map fun sp => pySlice raw sp.1 sp.2
  else none

/-- Maximal run of non-newline characters from position `s` (regex `(.+)`
without `re.DOTALL` cannot cross a line break). -/
def lineTail (raw : List Char) (s : Nat) : List Char :=
  (raw.drop s).takeWhile (fun c => !(c == '\n'))

/-- Greedy `\s*` backtracking for the `label\s*(.+)` patterns. -/
def tryWsGreedy (raw : List Char) (j0 : Nat) : Nat → Option (List Char)
  | 0 =>
    let g := lineTail raw j0
    if g.isEmpty then none else some g
  | w + 1 =>
    let g := lineTail raw (j0 + (w + 1))
    if g.isEmpty then tryWsGreedy raw j0 w else some g

/-- Attempt of a pattern `label\s*(.+)` anchored at position `i` (greedy
group running to the end of the line). -/
def matchGreedyAt (label raw : List Char) (i : Nat) : Option (List Char) :=
  if label.isPrefixOf (raw.drop i) then
    let j0 := i + label.length
    let maxW := ((raw.drop j0).takeWhile pyIsSpace).length
    tryWsGreedy raw j0 maxW
  else none

/-- Leftmost-match search (`re.search`): try every start position in order. -/
def searchPat (mAt : Nat → Option (List Char)) : Nat → Nat → Option (List Char)
  | _, 0 => none
  | i, fuel + 1 =>
    match mAt i with
    | some g => some g
    | none => searchPat mAt (i + 1) fuel

/-- Search `re.search(r'Title:\s*(.+)', raw)` followed by `.strip()`. -/
def extract_title (raw : List Char) : Option (List Char) :=
  (searchPat (matchGreedyAt "Title:".toList raw) 0 (raw.length + 1)).map pyStrip

/-- Search `re.search(r'Author:\s*(.+)', raw)` followed by `.strip()`. -/
def extract_author (raw : List Char) : Option (List Char) :=
  (searchPat (matchGreedyAt "Author:".toList raw) 0 (raw.length + 1)).map pyStrip

/-- Search `re.search(r'Language:\s*(.+)', raw)` followed by `.strip()`. -/
def extract_language (raw : List Char) : Option (List Char) :=
  (searchPat (matchGreedyAt "Language:".toList raw) 0 (raw.length + 1)).map pyStrip

/-- Search `re.search(r'Release date:\s*(.+?)(?:\[|$)', raw)` followed by `.strip()`. -/
def extract_release_date (raw : List Char) : Option (List Char) :=
  (searchPat (matchRDAt raw) 0 (raw.length + 1)).map pyStrip

/-- Metadata record assembled by `_extract_metadata` (`pg_id` comes from the
filename and is passed in by the caller). -/
structure Metadata where
  pg_id : List Char
  title : Option (List Char)
  author : Option (List Char)
  release_date : Option (List Char)
  language : Option (List Char)
deriving Repr, DecidableEq

/-- Embedding of `ProjectGutenbergText._extract_metadata`. -/
def extract_metadata (pg_id raw : List Char) : Metadata :=
  { pg_id := pg_id
    title := extract_title raw
    author := extract_author raw
    release_date := extract_release_date raw
    language := extract_language raw }

/-- Formalisation of claim C8's wording: the text after the `Release date:`
label, stopping at the first `[` or at the end of that line,
whitespace-trimmed. -/
def release_date_per_claim (raw : List Char) : Option (List Char) :=
  match findSub rdLabel raw with
  | none => none
  | some i =>
    let a := i + rdLabel.length
    let lineEnd := (findCharFrom raw '\n' a).getD raw.length
    some (pyStrip ((pySlice raw a lineEnd).takeWhile (fun c => !(c == '['))))

/-- VADER polarity scores: `pos`, `neg`, `neu` proportions and the compound
score, all modelled as rationals. -/
structure PolarityScores where
  pos : ℚ
  neg : ℚ
  neu : ℚ
  compound : ℚ
deriving Repr, DecidableEq

/-- External linguistic resources used by the pipeline: NLTK's
`word_tokenize`, `sent_tokenize` and `WordNetLemmatizer.lemmatize`, the
English stop-word set, and the VADER `polarity_scores` model.  None of them
is code of this repository, so they are parameters of the embedding. -/
structure NLP where
  word_tokenize : List Char → List (List Char)
  sent_tokenize : List Char → List (List Char)
  lemmatize : List Char → List Char
  stop_words : List Char → Bool
  polarity : List Char → PolarityScores

/-- Python `token.isalpha()`: non-empty and all characters alphabetic. -/
def pyIsAlpha (t : List Char) : Bool := !t.isEmpty && t.all Char.isAlpha

/-- Filter condition of `preprocess`: alphabetic, not a stop word, and
longer than two characters. -/
def keepToken (nlp : NLP) (t : List Char) : Bool :=
  pyIsAlpha t && !nlp.stop_words t && decide (t.length > 2)

/-- Single pass of the list comprehension in `preprocess`: keep a token iff
`keepToken`, lemmatizing each kept token. -/
def filterLemma (nlp : NLP) : List (List Char) → List (List Char)
  | [] => []
  | t :: ts =>
    if keepToken nlp t then nlp.lemmatize t :: filterLemma nlp ts
    else filterLemma nlp ts

/-- Embedding of `ProjectGutenbergText.preprocess`: tokenize the lowercased body, filter,
lemmatize. -/
def preprocess (nlp : NLP) (body : List Char) : List (List Char) :=
  filterLemma nlp (nlp.word_tokenize (listLower body))

/-- First-occurrence deduplication: the key order of a Python `Counter`
(insertion order of the underlying dict). -/
def firstDedup : List (List Char) → List (List Char)
  | [] => []
  | a :: l => a :: (firstDedup l).filter (fun b => !(b == a))

/-- Items of `Counter(tokens)`: each distinct token, in first-occurrence
order, paired with its occurrence count. -/
def counterItems (tokens : List (List Char)) : List (List Char × Nat) :=
  (firstDedup tokens).map fun w => (w, tokens.count w)

/-- Descending-by-count comparison used by `Counter.most_common`; ties fall
back to insertion order because the underlying Python sort is stable. -/
def countGE (a b : List Char × Nat) : Prop := b.2 ≤ a.2

instance : DecidableRel countGE := fun a b => Nat.decLe b.2 a.2

/-- Embedding of `Counter.most_common()` without a bound: all items, stably sorted by
count, descending. -/
def mostCommon (tokens : List (List Char)) : List (List Char × Nat) :=
  List.insertionSort countGE (counterItems tokens)

/-- One entry of the `bag_of_words` list: word, count, relative frequency. -/
structure WordEntry where
  word : List Char
  count : Nat
  frequency : ℚ
deriving Repr, DecidableEq

/-- Embedding of `ProjectGutenbergText.build_bag_of_words`: the 50 most common tokens
annotated with relative frequency, plus the full frequency dictionary
(modelled as its insertion-ordered item list). -/
def build_bag_of_words (tokens : List (List Char)) :
    List WordEntry × List (List Char × Nat) :=
  let total_words := tokens.length
  let bag := ((mostCommon tokens).take 50).map fun wc =>
    { word := wc.1
      count := wc.2
      frequency := if total_words > 0 then (wc.2 : ℚ) / (total_words : ℚ) else 0 }
  (bag, counterItems tokens)

/-- Embedding of `ProjectGutenbergText._classify_sentiment`. -/
def classify_sentiment (compound_score : ℚ) : String :=
  if compound_score ≥ 5 / 100 then "positive"
  else if compound_score ≤ -(5 / 100) then "negative"
  else "neutral"

/-- Arithmetic mean (`np.mean`) over rationals. -/
def qmean (l : List ℚ) : ℚ := l.sum / (l.length : ℚ)

/-- Minimum of a list (`np.min`); only used on non-empty lists. -/
def qlistMin : List ℚ → ℚ
  | [] => 0
  | a :: r => r.foldl min a

/-- Maximum of a list (`np.max`); only used on non-empty lists. -/
def qlistMax : List ℚ → ℚ
  | [] => 0
  | a :: r => r.foldl max a

/-- Aggregates over per-sentence compound scores. -/
structure SentenceAggregates where
  mean : ℚ
  std : ℚ
  min : ℚ
  max : ℚ
deriving Repr, DecidableEq

/-- Sentiment record returned by `analyze_sentiment`. -/
structure SentimentRecord where
  compound : ℚ
  positive : ℚ
  negative : ℚ
  neutral : ℚ
  classification : String
  sentence_sentiments : SentenceAggregates
deriving Repr, DecidableEq

/-- Embedding of `ProjectGutenbergText.analyze_sentiment`; `np.std` involves a square
root, which has no exact rational form, so it is passed in as the external
function `stdFn`; every guard is the code's own. -/
def analyze_sentiment (nlp : NLP) (stdFn : List ℚ → ℚ) (body : List Char) :
    SentimentRecord :=
  let scores := nlp.polarity body
  let sentences := nlp.sent_tokenize body
  let sentence_sentiments :=
    (sentences.filter fun s => !(pyStrip s).isEmpty).map fun s => (nlp.polarity s).compound
  { compound := scores.compound
    positive := scores.pos
    negative := scores.neg
    neutral := scores.neu
    classification := classify_sentiment scores.compound
    sentence_sentiments :=
      { mean := if sentence_sentiments.isEmpty then 0 else qmean sentence_sentiments
        std := if sentence_sentiments.isEmpty then 0 else stdFn sentence_sentiments
        min := if sentence_sentiments.isEmpty then 0 else qlistMin sentence_sentiments
        max := if sentence_sentiments.isEmpty then 0 else qlistMax sentence_sentiments } }

/-- Round-half-to-even on rationals, the semantics of Python's `round`. -/
def rhe (x : ℚ) : ℤ :=
  if x - (⌊x⌋ : ℚ) < 1 / 2 then ⌊x⌋
  else if 1 / 2 < x - (⌊x⌋ : ℚ) then ⌊x⌋ + 1
  else if ⌊x⌋ % 2 = 0 then ⌊x⌋ else ⌊x⌋ + 1

/-- Python `round(x, p)`. -/
def roundTo (p : Nat) (x : ℚ) : ℚ := ((rhe (x * 10 ^ p) : ℚ)) / 10 ^ p

/-- Style record returned by `analyze_style`. -/
structure StyleRecord where
  type_token_ratio : ℚ
  unique_words : Nat
  total_words : Nat
  unique_words_all : Nat
  total_words_all : Nat
  avg_word_length : ℚ
  avg_sentence_length : ℚ
  total_sentences : Nat
  vocabulary_richness : ℚ
deriving Repr, DecidableEq

/-- Embedding of `ProjectGutenbergText.analyze_style`: lexical diversity over the filtered
tokens, vocabulary richness over a fresh unfiltered alphabetic tokenization,
with the code's rounding (4 decimals for ratios, 2 for lengths). -/
def analyze_style (nlp : NLP) (body : List Char) (tokens : List (List Char)) :
    StyleRecord :=
  let all_tokens := nlp.word_tokenize (listLower body)
  let all_words := all_tokens.filter pyIsAlpha
  let sentences := nlp.sent_tokenize body
  let unique_words := (firstDedup tokens).length
  let total_words := tokens.length
  let ttr : ℚ := if total_words > 0 then (unique_words : ℚ) / (total_words : ℚ) else 0
  let unique_all := (firstDedup all_words).length
  let total_all := all_words.length
  let avg_word_length : ℚ :=
    if tokens.isEmpty then 0 else qmean (tokens.map fun w => (w.length : ℚ))
  let avg_sentence_length : ℚ :=
    if sentences.isEmpty then 0 else (all_words.length : ℚ) / (sentences.length : ℚ)
  { type_token_ratio := roundTo 4 ttr
    unique_words := unique_words
    total_words := total_words
    unique_words_all := unique_all
    total_words_all := total_all
    avg_word_length := roundTo 2 avg_word_length
    avg_sentence_length := roundTo 2 avg_sentence_length
    total_sentences := sentences.length
    vocabulary_richness :=
      roundTo 4 (if total_all > 0 then (unique_all : ℚ) / (total_all : ℚ) else 0) }

/-- Output of a successful sklearn vectorize-and-LDA fit: the fitted
vocabulary (`get_feature_names_out`) and the `n_topics` rows of
`lda.components_`, each a weight per vocabulary term. -/
structure LDAResult where
  feature_names : List (List Char)
  components : List (List ℚ)
deriving Repr, DecidableEq

/-- Type of the external fit: `CountVectorizer(max_features=1000,
stop_words='english', min_df=2).fit_transform` followed by
`LatentDirichletAllocation(n_components, random_state=42, max_iter=20).fit`;
an exception during either step is an `error` value. -/
def Fitter : Type := List (List Char) → Except Unit LDAResult

/-- Stable ascending `numpy.argsort` over a weight row: indices sorted by
weight, equal weights keeping index order. -/
def argsortAsc (comp : List ℚ) : List Nat :=
  List.insertionSort (fun i j => comp.getD i 0 ≤ comp.getD j 0) (List.range comp.length)

/-- Python slice `l[-k:]`: the last `k` elements — except that `k = 0` gives
`l[-0:] = l[0:]`, the whole list. -/
def pyTakeLast (l : List Nat) (k : Nat) : List Nat :=
  if k = 0 then l else l.drop (l.length - k)

/-- One topic of the output list. -/
structure TopicRecord where
  topic_id : Nat
  words : List (List Char)
  weight : ℚ
deriving Repr, DecidableEq

/-- Body of the per-topic loop: `argsort()[-n_words:][::-1]`, the words at
those indices and the weight of the first of them.  An out-of-range feature
index or an empty index list is Python's `IndexError`, surfacing as `none`
(caught by the enclosing `try`). -/
def topicFrom (feats : List (List Char)) (idx : Nat) (comp : List ℚ)
    (n_words : Nat) : Option TopicRecord :=
  let top_indices := (pyTakeLast (argsortAsc comp) n_words).reverse
  match top_indices with
  | [] => none
  | i0 :: _ =>
    if top_indices.all fun i => decide (i < feats.length) then
      some { topic_id := idx + 1
             words := top_indices.map fun i => feats.getD i []
             weight := comp.getD i0 0 }
    else none

/-- Loop over `enumerate(lda.components_)`; `none` as soon as one topic
raises. -/
def topicsGo (feats : List (List Char)) (n_words : Nat) :
    Nat → List (List ℚ) → Option (List TopicRecord)
  | _, [] => some []
  | idx, comp :: rest =>
    match topicFrom feats idx comp n_words with
    | none => none
    | some t => (topicsGo feats n_words (idx + 1) rest).map fun ts => t :: ts

/-- Branch of `extract_topics` inside the `try`: fit, then build the topic
records; any failure (fit exception or `IndexError`) resolves to `[]`. -/
def fitBranch (fitter : Fitter) (sentences : List (List Char)) (n_words : Nat) :
    List TopicRecord :=
  match fitter sentences with
  | .error _ => []
  | .ok r =>
    match topicsGo r.feature_names n_words 0 r.components with
    | none => []
    | some ts => ts

/-- Embedding of `ProjectGutenbergText.extract_topics`. -/
def extract_topics (nlp : NLP) (fitter : Fitter) (body : List Char)
    (n_topics n_words : Nat) : List TopicRecord :=
  let sentences := nlp.sent_tokenize body
  if sentences.length < n_topics then []
  else fitBranch fitter sentences n_words

/-- Per-document result record assembled by `analyze`. -/
structure AnalysisResult where
  id : List Char
  metadata : Metadata
  top_words : List WordEntry
  word_frequencies : List (List Char × Nat)
  sentiment : SentimentRecord
  style_metrics : StyleRecord
  topics : List TopicRecord
deriving Repr, DecidableEq

/-- Embedding of `ProjectGutenbergText.analyze`: the full per-document pipeline with the
default hyperparameters `n_topics = 3`, `n_words = 8`. -/
def analyze (nlp : NLP) (fitter : Fitter) (stdFn : List ℚ → ℚ)
    (pg_id raw : List Char) : AnalysisResult :=
  let body := extract_body raw
  let tokens := preprocess nlp body
  let bag := build_bag_of_words tokens
  { id := pg_id
    metadata := extract_metadata pg_id raw
    top_words := bag.1
    word_frequencies := bag.2
    sentiment := analyze_sentiment nlp stdFn body
    style_metrics := analyze_style nlp body tokens
    topics := extract_topics nlp fitter body 3 8 }

/-- Concrete tokenizer splitting on whitespace, used for witnesses. -/
def simpleTokenize (l : List Char) : List (List Char) :=
  (l.splitOnP pyIsSpace).filter fun t => !t.isEmpty

/-- Concrete instantiation of the external resources, used for witnesses:
whitespace tokenization, identity lemmatizer, empty stop-word set, constant
polarity. -/
def simpleNLP : NLP :=
  { word_tokenize := simpleTokenize
    sent_tokenize := fun l => (l.splitOn '.').filter fun s => !(pyStrip s).isEmpty
    lemmatize := id
    stop_words := fun t => t == "the".toList
    polarity := fun _ => { pos := 0, neg := 0, neu := 1, compound := 0 } }

/-- Fitter that always fails, used for witnesses. -/
def failFitter : Fitter := fun _ => .error ()

/-- Fitter returning a fixed two-term, arbitrary-topic-count result, used for
witnesses. -/
def constFitter (r : LDAResult) : Fitter := fun _ => .ok r

/-! Helper lemmas. -/

/-- Slicing from the left end and dropping after a take agree. -/
theorem pySlice_eq_textBetween (l : List Char) (a b : Nat) :
    pySlice l a b = textBetween l a b := by
  unfold pySlice textBetween
  rw [List.drop_take]

/-- The single-pass comprehension of `preprocess` is the filter-then-map
composition. -/
theorem filterLemma_eq (nlp : NLP) (ts : List (List Char)) :
    filterLemma nlp ts = (ts.filter (keepToken nlp)).map nlp.lemmatize := by
  induction ts with
  | nil => rfl
  | cons t ts ih =>
    by_cases h : keepToken nlp t
    · simp [filterLemma, List.filter_cons, h, ih]
    · simp [filterLemma, List.filter_cons, h, ih]

/-! Claim theorems. -/

/-- C5: sentiment classification is a pure threshold function of the compound
score: `compound ≥ 0.05` yields `positive`, `compound ≤ -0.05` yields
`negative`, anything strictly between yields `neutral`; in particular the
boundaries `0.05`, `-0.05` and `0` classify as positive, negative and
neutral respectively. -/
theorem c5_classify_thresholds (c : ℚ) :
    (c ≥ 5 / 100 → classify_sentiment c = "positive") ∧
    (c ≤ -(5 / 100) → classify_sentiment c = "negative") ∧
    (-(5 / 100) < c → c < 5 / 100 → classify_sentiment c = "neutral") ∧
    classify_sentiment (5 / 100) = "positive" ∧
    classify_sentiment (-(5 / 100)) = "negative" ∧
    classify_sentiment 0 = "neutral" := by
  refine ⟨fun h => ?_, fun h => ?_, fun h1 h2 => ?_, ?_, ?_, ?_⟩
  · unfold classify_sentiment
    rw [if_pos h]
  · unfold classify_sentiment
    rw [if_neg (by rw [ge_iff_le, not_le]; linarith), if_pos h]
  · unfold classify_sentiment
    rw [if_neg (by rw [ge_iff_le, not_le]; linarith), if_neg (by rw [not_le]; linarith)]
  · norm_num [classify_sentiment]
  · norm_num [classify_sentiment]
  · norm_num [classify_sentiment]

/-- C5 witness: the three threshold implications evaluated at `0.07`,
`-0.07` and `0.01`. -/
theorem c5_witness :
    classify_sentiment (7 / 100) = "positive" ∧
    classify_sentiment (-(7 / 100)) = "negative" ∧
    classify_sentiment (1 / 100) = "neutral" :=
  ⟨(c5_classify_thresholds (7 / 100)).1 (by norm_num),
   (c5_classify_thresholds (-(7 / 100))).2.1 (by norm_num),
   (c5_classify_thresholds (1 / 100)).2.2.1 (by norm_num) (by norm_num)⟩

/-- C3: the preprocessor output is exactly the tokens of the lowercased text
that are wholly alphabetic, not stop words and longer than two characters,
each lemmatized, in input order with duplicates preserved (the equality with
`filter` followed by `map` states all three at once). -/
theorem c3_preprocess_spec (nlp : NLP) (body : List Char) :
    preprocess nlp body =
      ((nlp.word_tokenize (listLower body)).filter fun t =>
          pyIsAlpha t && !nlp.stop_words t && decide (t.length > 2)).map
        nlp.lemmatize := by
  unfold preprocess
  rw [filterLemma_eq]
  rfl

/-- C1 counterexample input: both markers occur but no newline follows the
start marker, so Python's `find('\n', start_idx) + 1` restarts at index 0. -/
def c1CounterRaw : List Char :=
  "A*** START OF THE PROJECT GUTENBERG EBOOK B *** END OF THE PROJECT GUTENBERG EBOOK".toList

/-- C1 counterexample: on `c1CounterRaw` the code keeps the whole prefix of
the document (including the start-marker line itself), while the claim's
"strictly between the end of the start-marker's line and the end marker"
yields the empty body. -/
theorem c1_counterexample :
    extract_body c1CounterRaw ≠ body_per_claim c1CounterRaw ∧
    extract_body c1CounterRaw =
      "A*** START OF THE PROJECT GUTENBERG EBOOK B".toList ∧
    body_per_claim c1CounterRaw = [] := by
  refine ⟨by decide, by decide, by decide⟩

/-- C1 (amended): body extraction equals the claimed between-the-markers
slice (stripped of whitespace and then of leading byte-order marks, empty
when either marker is absent), except that when no newline follows the start
marker the slice restarts at the beginning of the document. -/
theorem c1_body_extraction (raw : List Char) :
    extract_body raw = body_amended raw := by
  unfold extract_body body_amended lineEndAmended
  cases h1 : findSub startMarker raw with
  | none => rfl
  | some s =>
    cases h2 : findSub endMarker raw with
    | none => rfl
    | some e =>
      cases h3 : findCharFrom raw '\n' s <;>
        simp only [pySlice_eq_textBetween]

/-- C9 scenario input: a document with both body markers whose header
carries `Title: Foo` and `Author: Bar` and no release-date or language
line. -/
def c9Raw : List Char :=
  "Title: Foo\nAuthor: Bar\n\n*** START OF THE PROJECT GUTENBERG EBOOK FOO ***\nSome body text.\n*** END OF THE PROJECT GUTENBERG EBOOK FOO ***\n".toList

/-- C9: on the scenario document the metadata record is exactly
`{title := Foo, author := Bar, release_date := none, language := none}`,
and both body markers are indeed present. -/
theorem c9_metadata_scenario :
    extract_metadata "pg1".toList c9Raw =
      { pg_id := "pg1".toList
        title := some "Foo".toList
        author := some "Bar".toList
        release_date := none
        language := none } ∧
    (findSub startMarker c9Raw).isSome = true ∧
    (findSub endMarker c9Raw).isSome = true := by
  refine ⟨by decide, by decide, by decide⟩

/-- Membership in the first-occurrence deduplication. -/
theorem mem_firstDedup (a : List Char) (l : List (List Char)) :
    a ∈ firstDedup l ↔ a ∈ l := by
  induction l with
  | nil => simp [firstDedup]
  | cons x t ih =>
    by_cases hax : a = x
    · simp [firstDedup, hax]
    · simp [firstDedup, List.mem_filter, hax, ih, beq_iff_eq]

/-- First-occurrence deduplication has no duplicates. -/
theorem firstDedup_nodup (l : List (List Char)) : (firstDedup l).Nodup := by
  induction l with
  | nil => simp [firstDedup]
  | cons x t ih =>
    simp only [firstDedup, List.nodup_cons]
    refine ⟨fun hx => ?_, ih.filter _⟩
    have := (List.mem_filter.mp hx).2
    simp at this

/-- First-occurrence deduplication is a sublist of the original list. -/
theorem firstDedup_sublist (l : List (List Char)) :
    List.Sublist (firstDedup l) l := by
  induction l with
  | nil => simp [firstDedup]
  | cons x t ih => exact .cons₂ x ((List.filter_sublist _).trans ih)

/-- First-occurrence deduplication is a permutation of Mathlib's `dedup`. -/
theorem firstDedup_perm_dedup (l : List (List Char)) :
    List.Perm (firstDedup l) l.dedup := by
  rw [List.perm_ext_iff_of_nodup (firstDedup_nodup l) l.nodup_dedup]
  intro a
  rw [mem_firstDedup, List.mem_dedup]

/-- Length of the first-occurrence deduplication, in `dedup` terms. -/
theorem firstDedup_length_eq (l : List (List Char)) :
    (firstDedup l).length = l.dedup.length :=
  (firstDedup_perm_dedup l).length_eq

/-- Round-half-to-even of a non-negative rational is non-negative. -/
theorem rhe_nonneg {x : ℚ} (hx : 0 ≤ x) : 0 ≤ rhe x := by
  unfold rhe
  have hf : (0 : ℤ) ≤ ⌊x⌋ := Int.floor_nonneg.mpr hx
  split_ifs <;> omega

/-- Round-half-to-even respects an integer upper bound. -/
theorem rhe_le_of_le {x : ℚ} {M : ℤ} (h : x ≤ (M : ℚ)) : rhe x ≤ M := by
  unfold rhe
  have hf : ⌊x⌋ ≤ M := by
    have := Int.floor_le_floor (α := ℚ) h
    simpa using this
  split_ifs with h1 h2 h3
  · exact hf
  · have hlt : ⌊x⌋ < M := by
      rcases lt_or_eq_of_le hf with hlt | heq
      · exact hlt
      · exfalso
        rw [heq] at h2
        linarith
    omega
  · exact hf
  · have h4 : x - (⌊x⌋ : ℚ) = 1 / 2 := le_antisymm (not_lt.mp h2) (not_lt.mp h1)
    have hq : ((⌊x⌋ : ℚ)) < (M : ℚ) := by linarith
    have : ⌊x⌋ < M := by exact_mod_cast hq
    omega

/-- Python `round(0, p) = 0`. -/
theorem roundTo_zero (p : Nat) : roundTo p 0 = 0 := by
  simp [roundTo, rhe]

/-- Python rounding keeps non-negative values non-negative. -/
theorem roundTo_nonneg {x : ℚ} (p : Nat) (hx : 0 ≤ x) : 0 ≤ roundTo p x := by
  unfold roundTo
  apply div_nonneg _ (by positivity)
  exact_mod_cast rhe_nonneg (by positivity)

/-- Python rounding keeps values at most one at most one. -/
theorem roundTo_le_one {x : ℚ} (p : Nat) (hx : x ≤ 1) : roundTo p x ≤ 1 := by
  unfold roundTo
  rw [div_le_one (by positivity)]
  have h1 : x * 10 ^ p ≤ (((10 : ℤ) ^ p : ℤ) : ℚ) := by
    push_cast
    exact mul_le_of_le_one_left (by positivity) hx
  exact_mod_cast rhe_le_of_le h1

/-- Evaluation rule for `rhe` when the fractional part stays below a half. -/
theorem rhe_eq_down {x : ℚ} {f : ℤ} (h1 : (f : ℚ) ≤ x)
    (h2 : x - (f : ℚ) < 1 / 2) : rhe x = f := by
  have hfl : ⌊x⌋ = f := Int.floor_eq_iff.mpr ⟨h1, by linarith⟩
  unfold rhe
  rw [hfl, if_pos h2]

/-- Evaluation rule for `rhe` when the fractional part exceeds a half. -/
theorem rhe_eq_up {x : ℚ} {f : ℤ} (h2 : 1 / 2 < x - (f : ℚ))
    (h3 : x < (f : ℚ) + 1) : rhe x = f + 1 := by
  have hfl : ⌊x⌋ = f := Int.floor_eq_iff.mpr ⟨by linarith, h3⟩
  unfold rhe
  rw [hfl, if_neg (by linarith), if_pos h2]

/-- Guarded count ratios lie in the unit interval. -/
theorem unitRatio (u t : Nat) (h : u ≤ t) :
    0 ≤ (if t > 0 then (u : ℚ) / t else 0) ∧
      (if t > 0 then (u : ℚ) / t else 0) ≤ 1 := by
  split_ifs with ht
  · constructor
    · positivity
    · rw [div_le_one (by exact_mod_cast ht)]
      exact_mod_cast h
  · norm_num

/-- C7 counterexample tokens: two distinct words among three tokens. -/
def c7Tokens : List (List Char) := ["cat".toList, "cat".toList, "dog".toList]

/-- Evaluation of `round(2/3, 4)`. -/
theorem roundTo_two_thirds : roundTo 4 (2 / 3) = 6667 / 10000 := by
  have h : rhe (2 / 3 * 10 ^ 4) = 6666 + 1 :=
    rhe_eq_up (f := 6666) (by norm_num) (by norm_num)
  unfold roundTo
  rw [h]
  norm_num

/-- C7 counterexample: with 2 unique tokens out of 3 the code stores
`round(2/3, 4) = 0.6667`, not the exact ratio `2/3` the claim states. -/
theorem c7_counterexample :
    (analyze_style simpleNLP [] c7Tokens).unique_words = 2 ∧
    (analyze_style simpleNLP [] c7Tokens).total_words = 3 ∧
    (analyze_style simpleNLP [] c7Tokens).type_token_ratio ≠ (2 : ℚ) / 3 ∧
    (analyze_style simpleNLP [] c7Tokens).type_token_ratio = 6667 / 10000 := by
  have hlen : (firstDedup c7Tokens).length = 2 := by decide
  have httr : (analyze_style simpleNLP [] c7Tokens).type_token_ratio
      = roundTo 4 (2 / 3) := by
    simp only [analyze_style, hlen]
    norm_num [c7Tokens]
  refine ⟨by decide, by decide, ?_, ?_⟩
  · rw [httr, roundTo_two_thirds]
    norm_num
  · rw [httr, roundTo_two_thirds]

/-- C7 (amended): the style ratios equal unique divided by total (filtered
tokens for the type-token ratio, unfiltered alphabetic tokens for vocabulary
richness, 0 when the respective total is 0) rounded to 4 decimal places;
both ratios lie in `[0, 1]`, and both are exactly 0 for the empty text (with
its empty filtered token sequence). -/
theorem c7_style_invariants (nlp : NLP) (body : List Char)
    (tokens : List (List Char)) :
    (analyze_style nlp body tokens).type_token_ratio =
      roundTo 4 (if tokens.length > 0 then
        (tokens.dedup.length : ℚ) / (tokens.length : ℚ) else 0) ∧
    (analyze_style nlp body tokens).vocabulary_richness =
      roundTo 4
        (if ((nlp.word_tokenize (listLower body)).filter pyIsAlpha).length > 0 then
          (((nlp.word_tokenize (listLower body)).filter pyIsAlpha).dedup.length : ℚ) /
            (((nlp.word_tokenize (listLower body)).filter pyIsAlpha).length : ℚ)
        else 0) ∧
    0 ≤ (analyze_style nlp body tokens).type_token_ratio ∧
    (analyze_style nlp body tokens).type_token_ratio ≤ 1 ∧
    0 ≤ (analyze_style nlp body tokens).vocabulary_richness ∧
    (analyze_style nlp body tokens).vocabulary_richness ≤ 1 ∧
    (body = [] → nlp.word_tokenize [] = [] → tokens = preprocess nlp body →
      (analyze_style nlp body tokens).type_token_ratio = 0 ∧
        (analyze_style nlp body tokens).vocabulary_richness = 0) := by
  have httr :
      (analyze_style nlp body tokens).type_token_ratio =
        roundTo 4 (if tokens.length > 0 then
          (tokens.dedup.length : ℚ) / (tokens.length : ℚ) else 0) := by
    simp only [analyze_style, firstDedup_length_eq]
  have hvr :
      (analyze_style nlp body tokens).vocabulary_richness =
        roundTo 4
          (if ((nlp.word_tokenize (listLower body)).filter pyIsAlpha).length > 0 then
            (((nlp.word_tokenize (listLower body)).filter pyIsAlpha).dedup.length : ℚ) /
              (((nlp.word_tokenize (listLower body)).filter pyIsAlpha).length : ℚ)
          else 0) := by
    simp only [analyze_style, firstDedup_length_eq]
  have hded : ∀ l : List (List Char), l.dedup.length ≤ l.length := fun l =>
    l.dedup_sublist.length_le
  refine ⟨httr, hvr, ?_, ?_, ?_, ?_, ?_⟩
  · rw [httr]
    exact roundTo_nonneg 4 (unitRatio _ _ (hded tokens)).1
  · rw [httr]
    exact roundTo_le_one 4 (unitRatio _ _ (hded tokens)).2
  · rw [hvr]
    exact roundTo_nonneg 4 (unitRatio _ _ (hded _)).1
  · rw [hvr]
    exact roundTo_le_one 4 (unitRatio _ _ (hded _)).2
  · intro hb hwt htok
    subst hb
    have htok0 : tokens = [] := by
      rw [htok]
      simp [preprocess, listLower, hwt, filterLemma]
    subst htok0
    constructor
    · rw [httr]
      simp [roundTo_zero]
    · rw [hvr]
      simp [listLower, hwt, roundTo_zero]

/-- C7 witness: the amended statement applied to a concrete two-word
tokens list. -/
theorem c7_witness :
    (analyze_style simpleNLP [] c7Tokens).type_token_ratio =
      roundTo 4 ((c7Tokens.dedup.length : ℚ) / (c7Tokens.length : ℚ)) ∧
    (analyze_style simpleNLP [] c7Tokens).type_token_ratio ≤ 1 := by
  have h := c7_style_invariants simpleNLP [] c7Tokens
  refine ⟨?_, h.2.2.2.1⟩
  have h1 := h.1
  norm_num at h1 ⊢
  exact h1

/-- C2: when the body text is empty (markers not found), no analyzer fails
(all embedded functions are total) and each produces its degenerate record:
empty filtered tokens, empty `top_words` and `word_frequencies`, all-zero
sentence-level sentiment aggregates, all-zero style counts and ratios, and an
empty topic list.  The tokenizer hypotheses record that NLTK tokenizers send
the empty string to no tokens. -/
theorem c2_empty_body_degenerate (nlp : NLP) (fitter : Fitter)
    (stdFn : List ℚ → ℚ) (pg_id raw : List Char)
    (hbody : extract_body raw = [])
    (hwt : nlp.word_tokenize [] = [])
    (hst : nlp.sent_tokenize [] = []) :
    preprocess nlp (extract_body raw) = [] ∧
    (analyze nlp fitter stdFn pg_id raw).top_words = [] ∧
    (analyze nlp fitter stdFn pg_id raw).word_frequencies = [] ∧
    (analyze nlp fitter stdFn pg_id raw).sentiment.sentence_sentiments =
      { mean := 0, std := 0, min := 0, max := 0 } ∧
    (analyze nlp fitter stdFn pg_id raw).style_metrics =
      { type_token_ratio := 0
        unique_words := 0
        total_words := 0
        unique_words_all := 0
        total_words_all := 0
        avg_word_length := 0
        avg_sentence_length := 0
        total_sentences := 0
        vocabulary_richness := 0 } ∧
    (analyze nlp fitter stdFn pg_id raw).topics = [] := by
  have hpre : preprocess nlp ([] : List Char) = [] := by
    simp [preprocess, listLower, hwt, filterLemma]
  refine ⟨?_, ?_, ?_, ?_, ?_, ?_⟩
  · rw [hbody]
    exact hpre
  · simp only [analyze]
    rw [hbody, hpre]
    rfl
  · simp only [analyze]
    rw [hbody, hpre]
    rfl
  · simp only [analyze]
    rw [hbody]
    simp [analyze_sentiment, hst]
  · simp only [analyze]
    rw [hbody, hpre]
    simp [analyze_style, listLower, hwt, hst, firstDedup, roundTo_zero]
  · simp only [analyze]
    rw [hbody]
    simp [extract_topics, hst]

/-- C2 witness input: the spec's end-to-end scenario text, which has no
marker lines. -/
def c2Raw : List Char := "The cat sat. The cat ran fast.".toList

/-- C2 witness: the degenerate-analysis theorem applied to the scenario
document with concrete tokenizers. -/
theorem c2_witness :
    preprocess simpleNLP (extract_body c2Raw) = [] ∧
    (analyze simpleNLP failFitter (fun _ => 0) "pg1".toList c2Raw).top_words = [] ∧
    (analyze simpleNLP failFitter (fun _ => 0) "pg1".toList c2Raw).word_frequencies = [] ∧
    (analyze simpleNLP failFitter (fun _ => 0) "pg1".toList c2Raw).sentiment.sentence_sentiments =
      { mean := 0, std := 0, min := 0, max := 0 } ∧
    (analyze simpleNLP failFitter (fun _ => 0) "pg1".toList c2Raw).style_metrics =
      { type_token_ratio := 0
        unique_words := 0
        total_words := 0
        unique_words_all := 0
        total_words_all := 0
        avg_word_length := 0
        avg_sentence_length := 0
        total_sentences := 0
        vocabulary_richness := 0 } ∧
    (analyze simpleNLP failFitter (fun _ => 0) "pg1".toList c2Raw).topics = [] :=
  c2_empty_body_degenerate simpleNLP failFitter (fun _ => 0) "pg1".toList c2Raw
    (by decide) (by decide) (by decide)

/-- C6: topic extraction never fails fatally — fewer sentences than
`n_topics` yields `[]` for every fitter (no fit attempted; in particular
`n_topics - 1` sentences yield `[]`), exactly `n_topics` sentences take the
fit branch, and a fit exception (or a later `IndexError` inside the topic
loop) is resolved as `[]`. -/
theorem c6_topics_robust (nlp : NLP) (fitter : Fitter) (body : List Char)
    (N K : Nat) :
    ((nlp.sent_tokenize body).length < N →
      extract_topics nlp fitter body N K = []) ∧
    (0 < N → (nlp.sent_tokenize body).length = N - 1 →
      extract_topics nlp fitter body N K = []) ∧
    ((nlp.sent_tokenize body).length = N →
      extract_topics nlp fitter body N K =
        fitBranch fitter (nlp.sent_tokenize body) K) ∧
    (N ≤ (nlp.sent_tokenize body).length → ∀ e : Unit,
      fitter (nlp.sent_tokenize body) = .error e →
      extract_topics nlp fitter body N K = []) ∧
    (N ≤ (nlp.sent_tokenize body).length → ∀ r : LDAResult,
      fitter (nlp.sent_tokenize body) = .ok r →
      topicsGo r.feature_names K 0 r.components = none →
      extract_topics nlp fitter body N K = []) := by
  refine ⟨fun h => ?_, fun hN h => ?_, fun h => ?_, fun h e he => ?_,
    fun h r hr hg => ?_⟩
  · simp only [extract_topics]
    rw [if_pos h]
  · simp only [extract_topics]
    rw [if_pos (by omega)]
  · simp only [extract_topics]
    rw [if_neg (by omega)]
  · simp only [extract_topics]
    rw [if_neg (by omega)]
    simp only [fitBranch]
    rw [he]
  · simp only [extract_topics]
    rw [if_neg (by omega)]
    simp only [fitBranch]
    rw [hr]
    show (match topicsGo r.feature_names K 0 r.components with
      | none => ([] : List TopicRecord)
      | some ts => ts) = []
    rw [hg]

/-- C6 witness input: three sentences. -/
def c6Body : List Char := "a. b. c.".toList

/-- C6 witness: three sentences against four requested topics skip the fit;
three against three attempt it and resolve the fit error as `[]`. -/
theorem c6_witness :
    extract_topics simpleNLP failFitter c6Body 4 8 = [] ∧
    extract_topics simpleNLP failFitter c6Body 3 8 = [] :=
  ⟨(c6_topics_robust simpleNLP failFitter c6Body 4 8).1 (by decide),
   (c6_topics_robust simpleNLP failFitter c6Body 3 8).2.2.2.1 (by decide) () rfl⟩

/-- Index of the first occurrence of `w` in `tokens` (the list length when
absent). -/
def firstIdx (tokens : List (List Char)) (w : List Char) : Nat :=
  (tokens.takeWhile fun t => !(t == w)).length

/-- First-occurrence index of the head. -/
theorem firstIdx_cons_self (t : List (List Char)) (w : List Char) :
    firstIdx (w :: t) w = 0 := by
  simp [firstIdx]

/-- First-occurrence index past a non-matching head. -/
theorem firstIdx_cons_ne (t : List (List Char)) {x w : List Char} (h : x ≠ w) :
    firstIdx (x :: t) w = firstIdx t w + 1 := by
  simp [firstIdx, List.takeWhile_cons, h]

/-- Order inside the first-occurrence deduplication reflects the order of
first occurrences in the original list. -/
theorem firstIdx_lt_of_pair_sublist :
    ∀ (l : List (List Char)) {a b : List Char},
      List.Sublist [a, b] (firstDedup l) → firstIdx l a < firstIdx l b
  | [], a, b, h => by simp [firstDedup] at h
  | x :: t, a, b, h => by
    simp only [firstDedup] at h
    cases h with
    | cons _ h' =>
      have ha : a ∈ (firstDedup t).filter fun b => !(b == x) :=
        h'.subset (by simp)
      have hb : b ∈ (firstDedup t).filter fun b => !(b == x) :=
        h'.subset (by simp)
      have hax : a ≠ x := by
        have := (List.mem_filter.mp ha).2
        simpa using this
      have hbx : b ≠ x := by
        have := (List.mem_filter.mp hb).2
        simpa using this
      have hF : List.Sublist [a, b] (firstDedup t) :=
        h'.trans (List.filter_sublist _)
      have ih := firstIdx_lt_of_pair_sublist t hF
      rw [firstIdx_cons_ne t (Ne.symm hax), firstIdx_cons_ne t (Ne.symm hbx)]
      omega
    | cons₂ _ h' =>
      have hb : b ∈ (firstDedup t).filter fun b => !(b == x) :=
        h'.subset (by simp)
      have hbx : b ≠ x := by
        have := (List.mem_filter.mp hb).2
        simpa using this
      rw [firstIdx_cons_self, firstIdx_cons_ne t (Ne.symm hbx)]
      omega

/-- Two distinct members of a list form an ordered pair sublist one way or
the other. -/
theorem pair_sublist_of_mem {α : Type} {a b : α} :
    ∀ {l : List α}, a ∈ l → b ∈ l → a ≠ b →
      List.Sublist [a, b] l ∨ List.Sublist [b, a] l
  | [], ha, _, _ => by simp at ha
  | x :: t, ha, hb, hne => by
    rcases List.mem_cons.mp ha with hax | hat
    · subst hax
      have hbt : b ∈ t := by
        rcases List.mem_cons.mp hb with hbx | hbt
        · exact absurd hbx.symm hne
        · exact hbt
      exact Or.inl ((List.singleton_sublist.mpr hbt).cons₂ a)
    · rcases List.mem_cons.mp hb with hbx | hbt
      · subst hbx
        exact Or.inr ((List.singleton_sublist.mpr hat).cons₂ b)
      · rcases pair_sublist_of_mem hat hbt hne with h | h
        · exact Or.inl (h.cons x)
        · exact Or.inr (h.cons x)

/-- In a duplicate-free list a pair cannot occur as a sublist in both
orders unless its components coincide. -/
theorem eq_of_pair_sublist_both {α : Type} {a b : α} :
    ∀ {l : List α}, List.Sublist [a, b] l → List.Sublist [b, a] l →
      l.Nodup → a = b
  | [], h1, _, _ => by simp at h1
  | x :: t, h1, h2, hn => by
    have hxt : x ∉ t := (List.nodup_cons.mp hn).1
    have hnt : t.Nodup := (List.nodup_cons.mp hn).2
    cases h1 with
    | cons _ h1' =>
      cases h2 with
      | cons _ h2' => exact eq_of_pair_sublist_both h1' h2' hnt
      | cons₂ _ h2' =>
        exfalso
        exact hxt (h1'.subset (by simp))
    | cons₂ _ h1' =>
      cases h2 with
      | cons _ h2' =>
        exfalso
        exact hxt (h2'.subset (by simp))
      | cons₂ _ h2' => rfl

/-- Splitting a mapped sum along a Boolean condition. -/
theorem sum_split (f : List Char → Nat) (p : List Char → Bool) :
    ∀ l : List (List Char),
      ((l.filter p).map f).sum + ((l.filter fun b => !(p b)).map f).sum
        = (l.map f).sum
  | [] => rfl
  | x :: t => by
    have ih := sum_split f p t
    by_cases h : p x <;> simp [List.filter_cons, h] <;> omega

/-- In a duplicate-free list the matches of a member reduce to that single
element. -/
theorem nodup_filter_eq_single {a : List Char} :
    ∀ {l : List (List Char)}, l.Nodup → a ∈ l →
      l.filter (fun b => b == a) = [a]
  | [], _, ha => by simp at ha
  | x :: t, hn, ha => by
    have hxt : x ∉ t := (List.nodup_cons.mp hn).1
    have hnt : t.Nodup := (List.nodup_cons.mp hn).2
    by_cases hax : x = a
    · subst hax
      have : t.filter (fun b => b == x) = [] := by
        apply List.filter_eq_nil_iff.mpr
        intro b hb
        simp only [beq_iff_eq]
        intro hbx
        exact hxt (hbx ▸ hb)
      simp [List.filter_cons, this]
    · have hat : a ∈ t := by
        rcases List.mem_cons.mp ha with h | h
        · exact absurd h.symm hax
        · exact h
      simp [List.filter_cons, hax, nodup_filter_eq_single hnt hat]

/-- The counts of the distinct tokens sum to the token-sequence length. -/
theorem sum_firstDedup_count :
    ∀ l : List (List Char),
      ((firstDedup l).map fun w => l.count w).sum = l.length
  | [] => rfl
  | x :: t => by
    simp only [firstDedup, List.map_cons, List.sum_cons]
    have hx : (x :: t).count x = t.count x + 1 := List.count_cons_self x t
    have hmap :
        (((firstDedup t).filter fun b => !(b == x)).map fun w => (x :: t).count w)
          = ((firstDedup t).filter fun b => !(b == x)).map fun w => t.count w := by
      apply List.map_congr_left
      intro w hw
      have hwx : w ≠ x := by
        have := (List.mem_filter.mp hw).2
        simpa using this
      exact List.count_cons_of_ne hwx t
    rw [hx, hmap]
    have hsplit := sum_split (fun w => t.count w) (fun b => !(b == x)) (firstDedup t)
    have hnot :
        ((firstDedup t).filter fun b => !(!(b == x))) =
          (firstDedup t).filter fun b => b == x := by
      simp
    rw [hnot] at hsplit
    have hmain := sum_firstDedup_count t
    by_cases hmem : x ∈ t
    · have hsingle : (firstDedup t).filter (fun b => b == x) = [x] :=
        nodup_filter_eq_single (firstDedup_nodup t) ((mem_firstDedup x t).mpr hmem)
      rw [hsingle] at hsplit
      simp only [List.map_cons, List.map_nil, List.sum_cons, List.sum_nil] at hsplit
      simp only [List.length_cons]
      omega
    · have hx0 : t.count x = 0 := List.count_eq_zero.mpr hmem
      have hself : ((firstDedup t).filter fun b => !(b == x)) = firstDedup t := by
        apply List.filter_eq_self.mpr
        intro b hb
        have : b ∈ t := (mem_firstDedup b t).mp hb
        simp only [Bool.not_eq_true', beq_eq_false_iff_ne]
        intro hbx
        exact hmem (hbx ▸ this)
      rw [hself]
      simp only [List.length_cons]
      omega

instance : IsTotal (List Char × Nat) countGE :=
  ⟨fun a b => le_total b.2 a.2⟩

instance : IsTrans (List Char × Nat) countGE :=
  ⟨fun _ _ _ h1 h2 => le_trans h2 h1⟩

/-- Word-count items carry no duplicate words. -/
theorem counterItems_nodup (tokens : List (List Char)) :
    (counterItems tokens).Nodup :=
  (firstDedup_nodup tokens).map fun _ _ h => congrArg Prod.fst h

/-- C4: `word_frequencies` maps exactly the distinct tokens to their
occurrence counts and its values sum to the token-sequence length;
`top_words` has at most 50 entries, sorted by count descending with ties in
first-encountered order, each entry's relative frequency being its count over
the total count (and no entries at all for an empty sequence). -/
theorem c4_bag_of_words (tokens : List (List Char)) :
    (∀ w, w ∈ tokens ↔ ∃ c, (w, c) ∈ (build_bag_of_words tokens).2) ∧
    (∀ w c, (w, c) ∈ (build_bag_of_words tokens).2 → c = tokens.count w) ∧
    ((build_bag_of_words tokens).2.map Prod.snd).sum = tokens.length ∧
    (build_bag_of_words tokens).1.length ≤ 50 ∧
    (build_bag_of_words tokens).1.Pairwise (fun a b => b.count ≤ a.count) ∧
    (∀ a b : WordEntry, List.Sublist [a, b] (build_bag_of_words tokens).1 →
      a.count = b.count → firstIdx tokens a.word < firstIdx tokens b.word) ∧
    (∀ e ∈ (build_bag_of_words tokens).1,
      e.frequency = (e.count : ℚ) / (tokens.length : ℚ)) ∧
    (tokens = [] → (build_bag_of_words tokens).1 = []) := by
  have hwf : (build_bag_of_words tokens).2 = counterItems tokens := rfl
  have hbag : (build_bag_of_words tokens).1 =
      ((mostCommon tokens).take 50).map fun wc =>
        { word := wc.1
          count := wc.2
          frequency :=
            if tokens.length > 0 then (wc.2 : ℚ) / (tokens.length : ℚ)
            else 0 } := rfl
  have hperm : List.Perm (mostCommon tokens) (counterItems tokens) :=
    List.perm_insertionSort countGE _
  have hndS : (mostCommon tokens).Nodup :=
    hperm.nodup_iff.mpr (counterItems_nodup tokens)
  refine ⟨?_, ?_, ?_, ?_, ?_, ?_, ?_, ?_⟩
  · intro w
    rw [hwf]
    constructor
    · intro hw
      exact ⟨tokens.count w,
        List.mem_map.mpr ⟨w, (mem_firstDedup w tokens).mpr hw, rfl⟩⟩
    · rintro ⟨c, hc⟩
      obtain ⟨w', hw', heq⟩ := List.mem_map.mp hc
      have : w' = w := congrArg Prod.fst heq
      exact (mem_firstDedup w tokens).mp (this ▸ hw')
  · intro w c hc
    rw [hwf] at hc
    obtain ⟨w', hw', heq⟩ := List.mem_map.mp hc
    have hw : w' = w := congrArg Prod.fst heq
    have hcnt : tokens.count w' = c := congrArg Prod.snd heq
    rw [← hcnt, hw]
  · rw [hwf]
    unfold counterItems
    rw [List.map_map]
    exact sum_firstDedup_count tokens
  · rw [hbag]
    simp only [List.length_map, List.length_take]
    omega
  · rw [hbag]
    have hsorted : (mostCommon tokens).Pairwise countGE :=
      List.sorted_insertionSort countGE _
    exact ((hsorted.sublist (List.take_sublist 50 _)).map _) fun a b h => h
  · intro a b hsub heq
    rw [hbag] at hsub
    obtain ⟨l', hl', hmap⟩ := List.sublist_map_iff.mp hsub
    have hlen2 : l'.length = 2 := by
      have := congrArg List.length hmap
      simpa using this.symm
    obtain ⟨a', b', rfl⟩ := List.length_eq_two.mp hlen2
    · have haw : a.word = a'.1 := by
        have := congrArg (fun l => (l.headD a).word) hmap
        simpa using this
      have hac : a.count = a'.2 := by
        have := congrArg (fun l => (l.headD a).count) hmap
        simpa using this
      have hbw : b.word = b'.1 := by
        have := congrArg (fun l => (l.getD 1 b).word) hmap
        simpa using this
      have hbc : b.count = b'.2 := by
        have := congrArg (fun l => (l.getD 1 b).count) hmap
        simpa using this
      have hS : List.Sublist [a', b'] (mostCommon tokens) :=
        hl'.trans (List.take_sublist 50 _)
      have hcnt : a'.2 = b'.2 := by omega
      have hmemS_a : a' ∈ mostCommon tokens := hS.subset (by simp)
      have hmemS_b : b' ∈ mostCommon tokens := hS.subset (by simp)
      have hmem_a : a' ∈ counterItems tokens := hperm.subset hmemS_a
      have hmem_b : b' ∈ counterItems tokens := hperm.subset hmemS_b
      have hne : a' ≠ b' := by
        intro h
        subst h
        have hdup : List.Nodup [a', a'] := hndS.sublist hS
        simp at hdup
      have hpair : List.Sublist [a', b'] (counterItems tokens) := by
        rcases pair_sublist_of_mem hmem_a hmem_b hne with h | h
        · exact h
        · exfalso
          have hge : countGE b' a' := le_of_eq hcnt
          have hBA : List.Sublist [b', a'] (mostCommon tokens) :=
            List.pair_sublist_insertionSort (r := countGE) hge h
          exact hne (eq_of_pair_sublist_both hS hBA hndS)
      obtain ⟨l2, hl2, hmap2⟩ := List.sublist_map_iff.mp hpair
      have hlen2' : l2.length = 2 := by
        have := congrArg List.length hmap2
        simpa using this.symm
      obtain ⟨wa, wb, rfl⟩ := List.length_eq_two.mp hlen2'
      have hwa : a' = (wa, tokens.count wa) := by
        simpa using congrArg (fun l => l.headD a') hmap2
      have hwb : b' = (wb, tokens.count wb) := by
        simpa using congrArg (fun l => l.getD 1 b') hmap2
      have hidx := firstIdx_lt_of_pair_sublist tokens hl2
      have hwordA : a.word = wa := by rw [haw, hwa]
      have hwordB : b.word = wb := by rw [hbw, hwb]
      rw [hwordA, hwordB]
      exact hidx
  · intro e he
    rw [hbag] at he
    obtain ⟨wc, hwc, rfl⟩ := List.mem_map.mp he
    by_cases hlen : tokens.length > 0
    · show (if tokens.length > 0 then (wc.2 : ℚ) / (tokens.length : ℚ) else 0)
        = (wc.2 : ℚ) / (tokens.length : ℚ)
      rw [if_pos hlen]
    · have h0 : tokens = [] := by
        cases tokens with
        | nil => rfl
        | cons x t => simp at hlen
      subst h0
      simp [mostCommon, counterItems, firstDedup] at hwc
  · intro h
    subst h
    rfl

/-- C4 witness tokens: a tie (`b` and `a` both occur twice, `b` first). -/
def c4Tokens : List (List Char) :=
  ["b".toList, "a".toList, "a".toList, "b".toList, "c".toList]

/-- C4 witness: the bag-of-words theorem applied to a concrete token list
with a count tie. -/
theorem c4_witness :
    2 = c4Tokens.count "b".toList ∧
    (∃ c, ("b".toList, c) ∈ (build_bag_of_words c4Tokens).2) ∧
    ((build_bag_of_words c4Tokens).2.map Prod.snd).sum = c4Tokens.length := by
  have h := c4_bag_of_words c4Tokens
  exact ⟨h.2.1 "b".toList 2 (by decide), (h.1 "b".toList).mp (by decide),
    h.2.2.1⟩

/-- The argsort of a weight row is a permutation of the index range. -/
theorem argsortAsc_perm (comp : List ℚ) :
    List.Perm (argsortAsc comp) (List.range comp.length) :=
  List.perm_insertionSort _ _

/-- The argsort of a weight row is sorted by ascending weight. -/
theorem argsortAsc_sorted (comp : List ℚ) :
    List.Pairwise (fun i j => comp.getD i 0 ≤ comp.getD j 0)
      (argsortAsc comp) := by
  haveI : IsTotal Nat (fun i j => comp.getD i 0 ≤ comp.getD j 0) :=
    ⟨fun _ _ => le_total _ _⟩
  haveI : IsTrans Nat (fun i j => comp.getD i 0 ≤ comp.getD j 0) :=
    ⟨fun _ _ _ h1 h2 => le_trans h1 h2⟩
  exact List.sorted_insertionSort _ _

/-- Length of the argsort. -/
theorem argsortAsc_length (comp : List ℚ) :
    (argsortAsc comp).length = comp.length :=
  (argsortAsc_perm comp).length_eq.trans (List.length_range _)

/-- Membership in the argsort is exactly index validity. -/
theorem mem_argsortAsc (comp : List ℚ) {i : Nat} :
    i ∈ argsortAsc comp ↔ i < comp.length := by
  rw [(argsortAsc_perm comp).mem_iff, List.mem_range]

/-- The argsort holds no duplicate indices. -/
theorem argsortAsc_nodup (comp : List ℚ) : (argsortAsc comp).Nodup :=
  (argsortAsc_perm comp).nodup_iff.mpr (List.nodup_range _)

/-- What claim C10 asserts of a single topic record built from weight row
`comp` over the vocabulary `feats`: its words are the vocabulary terms at a
duplicate-free index list of length `min n_words |vocab|`, listed by
descending weight, dominating every unlisted term, with the record weight
equal to the first listed term's weight, the maximum of the row. -/
def TopicSpec (comp : List ℚ) (feats : List (List Char)) (K : Nat)
    (t : TopicRecord) : Prop :=
  ∃ idxs i0 rest,
    idxs = i0 :: rest ∧
    t.words = idxs.map (fun i => feats.getD i []) ∧
    idxs.length = min K feats.length ∧
    idxs.Nodup ∧
    (∀ i ∈ idxs, i < feats.length) ∧
    idxs.Pairwise (fun a b => comp.getD b 0 ≤ comp.getD a 0) ∧
    (∀ j, j < feats.length → j ∉ idxs →
      ∀ a ∈ idxs, comp.getD j 0 ≤ comp.getD a 0) ∧
    t.weight = comp.getD i0 0 ∧
    (∀ j, j < feats.length → comp.getD j 0 ≤ comp.getD i0 0)

/-- The per-topic loop body satisfies claim C10's description whenever the
row matches the vocabulary, the vocabulary is non-empty and at least one
word is requested. -/
theorem topicFrom_spec (feats : List (List Char)) (idx : Nat) (comp : List ℚ)
    (K : Nat) (hc : comp.length = feats.length) (hF : 0 < feats.length)
    (hK : 1 ≤ K) :
    ∃ t, topicFrom feats idx comp K = some t ∧ t.topic_id = idx + 1 ∧
      TopicSpec comp feats K t := by
  have hSlen : (argsortAsc comp).length = comp.length := argsortAsc_length comp
  have hdropLen :
      ((argsortAsc comp).drop ((argsortAsc comp).length - K)).length
        = min K comp.length := by
    rw [List.length_drop]
    omega
  have htake : pyTakeLast (argsortAsc comp) K
      = (argsortAsc comp).drop ((argsortAsc comp).length - K) := by
    unfold pyTakeLast
    rw [if_neg (by omega)]
  have htoplen :
      ((pyTakeLast (argsortAsc comp) K).reverse).length = min K feats.length := by
    rw [List.length_reverse, htake, hdropLen, hc]
  have htopne : (pyTakeLast (argsortAsc comp) K).reverse ≠ [] := by
    intro h
    rw [h] at htoplen
    simp at htoplen
    omega
  obtain ⟨i0, rest, htop⟩ := List.exists_cons_of_ne_nil htopne
  have hmemtop : ∀ i ∈ (pyTakeLast (argsortAsc comp) K).reverse,
      i < comp.length := by
    intro i hi
    rw [List.mem_reverse, htake] at hi
    exact (mem_argsortAsc comp).mp ((List.drop_sublist _ _).subset hi)
  have hall : ((pyTakeLast (argsortAsc comp) K).reverse).all
      (fun i => decide (i < feats.length)) = true := by
    rw [List.all_eq_true]
    intro i hi
    simpa [hc] using hmemtop i hi
  have hi0mem : i0 ∈ (pyTakeLast (argsortAsc comp) K).reverse := by
    rw [htop]
    exact List.mem_cons_self i0 rest
  have hpairtop :
      ((pyTakeLast (argsortAsc comp) K).reverse).Pairwise
        (fun a b => comp.getD b 0 ≤ comp.getD a 0) := by
    rw [List.pairwise_reverse, htake]
    exact (argsortAsc_sorted comp).sublist (List.drop_sublist _ _)
  have hdom : ∀ j, j < feats.length →
      j ∉ (pyTakeLast (argsortAsc comp) K).reverse →
      ∀ a ∈ (pyTakeLast (argsortAsc comp) K).reverse,
        comp.getD j 0 ≤ comp.getD a 0 := by
    intro j hj hjout a ha
    have hjS : j ∈ argsortAsc comp := (mem_argsortAsc comp).mpr (hc ▸ hj)
    have hsplit := List.take_append_drop ((argsortAsc comp).length - K)
      (argsortAsc comp)
    have hsp := argsortAsc_sorted comp
    rw [← hsplit] at hsp
    have hpa := (List.pairwise_append.mp hsp).2.2
    have hjtake : j ∈ (argsortAsc comp).take ((argsortAsc comp).length - K) := by
      rw [← hsplit] at hjS
      rcases List.mem_append.mp hjS with h | h
      · exact h
      · exfalso
        apply hjout
        rw [List.mem_reverse, htake]
        exact h
    have hadrop : a ∈ (argsortAsc comp).drop ((argsortAsc comp).length - K) := by
      rw [← htake, ← List.mem_reverse]
      exact ha
    exact hpa j hjtake a hadrop
  refine ⟨{ topic_id := idx + 1
            words := ((pyTakeLast (argsortAsc comp) K).reverse).map
              fun i => feats.getD i []
            weight := comp.getD i0 0 }, ?_, rfl, ?_⟩
  · simp only [topicFrom]
    rw [htop]
    show (if ((i0 :: rest).all fun i => decide (i < feats.length)) = true
      then some _ else none) = _
    rw [htop] at hall
    rw [if_pos hall]
  · refine ⟨(pyTakeLast (argsortAsc comp) K).reverse, i0, rest, htop, rfl,
      htoplen, ?_, fun i hi => hc ▸ hmemtop i hi, hpairtop, hdom, rfl, ?_⟩
    · rw [List.nodup_reverse, htake]
      exact (argsortAsc_nodup comp).sublist (List.drop_sublist _ _)
    · intro j hj
      by_cases hjin : j ∈ (pyTakeLast (argsortAsc comp) K).reverse
      · rw [htop] at hjin hpairtop
        rcases List.mem_cons.mp hjin with h | h
        · subst h
          exact le_refl _
        · exact (List.pairwise_cons.mp hpairtop).1 j h
      · exact hdom j hj hjin i0 hi0mem

/-- The topic loop succeeds on every component list of fitting row lengths
and produces sequentially numbered records each satisfying `TopicSpec`. -/
theorem topicsGo_spec (feats : List (List Char)) (K : Nat)
    (hF : 0 < feats.length) (hK : 1 ≤ K) :
    ∀ (comps : List (List ℚ)) (idx0 : Nat),
      (∀ c ∈ comps, c.length = feats.length) →
      ∃ ts, topicsGo feats K idx0 comps = some ts ∧
        ts.length = comps.length ∧
        ∀ n (hn : n < ts.length) (hn2 : n < comps.length),
          (ts.get ⟨n, hn⟩).topic_id = idx0 + n + 1 ∧
          TopicSpec (comps.get ⟨n, hn2⟩) feats K (ts.get ⟨n, hn⟩)
  | [], idx0, _ => ⟨[], rfl, rfl, fun n hn => by simp at hn⟩
  | comp :: rest, idx0, hlen => by
    obtain ⟨t, ht, htid, hspec⟩ :=
      topicFrom_spec feats idx0 comp K (hlen comp (by simp)) hF hK
    obtain ⟨ts, hts, htslen, htsspec⟩ :=
      topicsGo_spec feats K hF hK rest (idx0 + 1)
        (fun c hc => hlen c (by simp [hc]))
    refine ⟨t :: ts, ?_, by simp [htslen], ?_⟩
    · simp only [topicsGo]
      rw [ht, hts]
      rfl
    · intro n hn hn2
      cases n with
      | zero =>
        refine ⟨?_, ?_⟩
        · show t.topic_id = idx0 + 0 + 1
          omega
        · exact hspec
      | succ m =>
        have h1 : m < ts.length := by
          simp only [List.length_cons] at hn
          omega
        have h2 : m < rest.length := by
          simp only [List.length_cons] at hn2
          omega
        have hm := htsspec m h1 h2
        refine ⟨?_, hm.2⟩
        show (ts.get ⟨m, h1⟩).topic_id = idx0 + (m + 1) + 1
        have := hm.1
        omega

/-- C10 (amended): when at least `n_topics` sentences are present and the
LDA fit succeeds (returning `n_topics` weight rows over a non-empty fitted
vocabulary) and at least one word per topic is requested, `extract_topics`
returns exactly `n_topics` records with `topic_id` fields `1, …, n_topics`
in order, each satisfying `TopicSpec`: its words are that topic's
highest-weighted vocabulary terms in descending weight order,
`min n_words |vocab|` of them, and its weight is the weight of its first
listed word, the row maximum.  (For `n_words = 0` Python's `[-0:]` slice
selects the whole vocabulary instead — see the counterexample.) -/
theorem c10_topic_structure (nlp : NLP) (fitter : Fitter) (body : List Char)
    (N K : Nat) (r : LDAResult)
    (hsen : N ≤ (nlp.sent_tokenize body).length)
    (hfit : fitter (nlp.sent_tokenize body) = .ok r)
    (hcomp : r.components.length = N)
    (hrows : ∀ c ∈ r.components, c.length = r.feature_names.length)
    (hF : 0 < r.feature_names.length)
    (hK : 1 ≤ K) :
    ∃ ts, extract_topics nlp fitter body N K = ts ∧ ts.length = N ∧
      ∀ n (hn : n < ts.length) (hn2 : n < r.components.length),
        (ts.get ⟨n, hn⟩).topic_id = n + 1 ∧
        TopicSpec (r.components.get ⟨n, hn2⟩) r.feature_names K
          (ts.get ⟨n, hn⟩) := by
  obtain ⟨ts, hts, hlen, hspec⟩ :=
    topicsGo_spec r.feature_names K hF hK r.components 0 hrows
  refine ⟨ts, ?_, by omega, fun n hn hn2 => ?_⟩
  · simp only [extract_topics]
    rw [if_neg (by omega)]
    simp only [fitBranch]
    rw [hfit]
    show (match topicsGo r.feature_names K 0 r.components with
      | none => ([] : List TopicRecord)
      | some ts => ts) = ts
    rw [hts]
  · have hm := hspec n hn hn2
    refine ⟨?_, hm.2⟩
    have := hm.1
    omega

/-- C10 witness fit result: two topics over a two-term vocabulary, with
integer-valued weights. -/
def c10R : LDAResult :=
  { feature_names := ["cat".toList, "dog".toList]
    components := [[2, 1], [1, 3]] }

/-- C10 witness: the structure theorem applied to a concrete two-sentence
document and fixed fit result. -/
theorem c10_witness :
    ∃ ts, extract_topics simpleNLP (constFitter c10R) "a. b.".toList 2 1 = ts ∧
      ts.length = 2 := by
  obtain ⟨ts, h1, h2, _⟩ :=
    c10_topic_structure simpleNLP (constFitter c10R) "a. b.".toList 2 1 c10R
      (by decide) rfl rfl (by decide) (by decide) (by decide)
  exact ⟨ts, h1, h2⟩

/-- C10 counterexample fit result: one topic over a one-term vocabulary. -/
def c10R0 : LDAResult :=
  { feature_names := ["cat".toList]
    components := [[2]] }

/-- C10 counterexample: with `n_words = 0` the Python slice `[-0:]` keeps
the whole argsort, so the topic lists all `1` vocabulary terms although the
claim's `min(n_words, vocabulary size)` is `0`. -/
theorem c10_counterexample :
    (extract_topics simpleNLP (constFitter c10R0) "a.".toList 1 0).map
        (fun t => t.words.length) = [1] ∧
    min 0 c10R0.feature_names.length = 0 ∧
    1 ≤ (simpleNLP.sent_tokenize "a.".toList).length ∧
    constFitter c10R0 (simpleNLP.sent_tokenize "a.".toList) = .ok c10R0 := by
  refine ⟨?_, by decide, by decide, rfl⟩
  decide

/-- Shifting the index accumulator of the substring search. -/
theorem findSubAux_shift (pat : List Char) :
    ∀ (l : List Char) (i : Nat),
      findSubAux pat l (i + 1) = (findSubAux pat l i).map (· + 1)
  | [], i => by
    simp only [findSubAux]
    split <;> rfl
  | x :: rest, i => by
    simp only [findSubAux]
    split
    · rfl
    · exact findSubAux_shift pat rest (i + 1)

/-- A found index is the first position where the pattern occurs. -/
theorem findSub_spec (pat : List Char) :
    ∀ (raw : List Char) {i : Nat}, findSub pat raw = some i →
      pat.isPrefixOf (raw.drop i) = true ∧
        ∀ k, k < i → pat.isPrefixOf (raw.drop k) = false
  | [], i, h => by
    simp only [findSub, findSubAux] at h
    split at h
    · rename_i hemp
      cases h
      refine ⟨?_, fun k hk => by omega⟩
      cases pat with
      | nil => rfl
      | cons a t => simp at hemp
    · cases h
  | x :: rest, i, h => by
    simp only [findSub, findSubAux] at h
    split at h
    · rename_i hpref
      cases h
      exact ⟨hpref, fun k hk => by omega⟩
    · rename_i hpref
      rw [show (0 + 1 : Nat) = 0 + 1 from rfl, findSubAux_shift pat rest 0] at h
      cases hr : findSubAux pat rest 0 with
      | none => rw [hr] at h; cases h
      | some i' =>
        rw [hr] at h
        have hi : i = i' + 1 := by
          simpa using h.symm
        subst hi
        have ih := findSub_spec pat rest (i := i') hr
        refine ⟨ih.1, fun k hk => ?_⟩
        cases k with
        | zero =>
          simp only [List.drop_zero]
          cases hp : pat.isPrefixOf (x :: rest)
          · rfl
          · exact absurd hp hpref
        | succ k' => exact ih.2 k' (by omega)

/-- When the pattern occurs nowhere, it is a prefix at no position. -/
theorem findSub_none (pat : List Char) :
    ∀ (raw : List Char), findSub pat raw = none →
      ∀ k, pat.isPrefixOf (raw.drop k) = false
  | [], h, k => by
    simp only [findSub, findSubAux] at h
    split at h
    · cases h
    · rename_i hemp
      rw [List.drop_nil]
      cases pat with
      | nil => simp at hemp
      | cons a t => rfl
  | x :: rest, h, k => by
    simp only [findSub, findSubAux] at h
    split at h
    · cases h
    · rename_i hpref
      rw [show (0 + 1 : Nat) = 0 + 1 from rfl, findSubAux_shift pat rest 0] at h
      have hrest : findSub pat rest = none := by
        cases hr : findSubAux pat rest 0 with
        | none => exact hr
        | some i' => rw [hr] at h; cases h
      cases k with
      | zero =>
        simp only [List.drop_zero]
        cases hp : pat.isPrefixOf (x :: rest)
        · rfl
        · exact absurd hp hpref
      | succ k' => exact findSub_none pat rest hrest k'

/-- A matching terminator position never exceeds the document length. -/
theorem isStop_le {raw : List Char} {q : Nat} (h : isStop raw q = true) :
    q ≤ raw.length := by
  unfold isStop at h
  simp only [Bool.or_eq_true, Bool.and_eq_true, decide_eq_true_eq,
    beq_iff_eq] at h
  rcases h with (⟨h1, _⟩ | h1) | ⟨h1, _⟩ <;> omega

/-- The lazy scan returns the first reachable terminator position. -/
theorem scanStop_reaches (raw : List Char) (p : Nat) :
    ∀ (fuel p0 : Nat), p0 < p → p - p0 ≤ fuel →
      (∀ q, q < p → p0 ≤ q → q < raw.length ∧ raw.getD q ' ' ≠ '\n') →
      isStop raw p = true →
      (∀ q, q < p → p0 < q → isStop raw q = false) →
      scanStop raw p0 fuel = some p
  | 0, p0, hlt, hfuel, _, _, _ => by omega
  | fuel + 1, p0, hlt, hfuel, hclear, hstop, hmin => by
    have hc := hclear p0 hlt (le_refl p0)
    simp only [scanStop]
    rw [if_pos (show (decide (p0 < raw.length) && !(raw.getD p0 ' ' == '\n'))
        = true by
      simp only [Bool.and_eq_true, decide_eq_true_eq, Bool.not_eq_true',
        beq_eq_false_iff_ne]
      exact ⟨hc.1, hc.2⟩)]
    by_cases hp : p0 + 1 = p
    · rw [hp, if_pos hstop]
    · have hfalse : isStop raw (p0 + 1) = false := hmin (p0 + 1) (by omega) (by omega)
      rw [hfalse]
      simp only [Bool.false_eq_true, if_false]
      exact scanStop_reaches raw p fuel (p0 + 1) (by omega) (by omega)
        (fun q hq1 hq2 => hclear q hq1 (by omega)) hstop
        (fun q hq1 hq2 => hmin q hq1 (by omega))

/-- The backtracking loop succeeds immediately when the scan from the full
whitespace run succeeds. -/
theorem tryWs_top (raw : List Char) (j0 w p : Nat)
    (h : scanStop raw (j0 + w) (raw.length + 1 - (j0 + w)) = some p) :
    tryWs raw j0 w = some (j0 + w, p) := by
  cases w with
  | zero =>
    simp only [Nat.add_zero] at h
    simp only [tryWs, Nat.add_zero]
    rw [h]
  | succ w' =>
    simp only [tryWs]
    rw [h]

/-- Start of the release-date group: after the label and the whole
whitespace run. -/
def rdStart (raw : List Char) (i : Nat) : Nat :=
  i + rdLabel.length + ((raw.drop (i + rdLabel.length)).takeWhile pyIsSpace).length

/-- Successful match of the release-date pattern at a given position. -/
theorem matchRDAt_eq (raw : List Char) (i p : Nat)
    (hpre : rdLabel.isPrefixOf (raw.drop i) = true)
    (hscan : scanStop raw (rdStart raw i)
        (raw.length + 1 - rdStart raw i) = some p) :
    matchRDAt raw i = some (pySlice raw (rdStart raw i) p) := by
  simp only [matchRDAt]
  rw [if_pos hpre]
  rw [tryWs_top raw (i + rdLabel.length)
    ((raw.drop (i + rdLabel.length)).takeWhile pyIsSpace).length p hscan]
  rfl

/-- The release-date pattern fails where its label is not a prefix. -/
theorem matchRDAt_none (raw : List Char) (k : Nat)
    (h : rdLabel.isPrefixOf (raw.drop k) = false) :
    matchRDAt raw k = none := by
  simp only [matchRDAt]
  rw [h]
  rfl

/-- The leftmost search returns the first position that matches. -/
theorem searchPat_finds (mAt : Nat → Option (List Char)) (i : Nat)
    (g : List Char) :
    ∀ (fuel i0 : Nat), i0 ≤ i → i < i0 + fuel →
      (∀ k, i0 ≤ k → k < i → mAt k = none) → mAt i = some g →
      searchPat mAt i0 fuel = some g
  | 0, i0, hle, hlt, _, _ => by omega
  | fuel + 1, i0, hle, hlt, hnone, hsome => by
    simp only [searchPat]
    by_cases h0 : i0 = i
    · rw [h0, hsome]
    · rw [hnone i0 (le_refl i0) (by omega)]
      exact searchPat_finds mAt i g fuel (i0 + 1) (by omega) (by omega)
        (fun k hk1 hk2 => hnone k (by omega) hk2) hsome

/-- The leftmost search fails when every position fails. -/
theorem searchPat_none (mAt : Nat → Option (List Char))
    (h : ∀ k, mAt k = none) :
    ∀ (fuel i0 : Nat), searchPat mAt i0 fuel = none
  | 0, _ => rfl
  | fuel + 1, i0 => by
    simp only [searchPat]
    rw [h i0]
    exact searchPat_none mAt h fuel (i0 + 1)

/-- A Boolean prefix bounds the length of its extension. -/
theorem isPrefixOf_length_le {l1 l2 : List Char}
    (h : l1.isPrefixOf l2 = true) : l1.length ≤ l2.length :=
  (List.isPrefixOf_iff_prefix.mp h).length_le

/-- C8 (amended): when the raw text contains `Release date:` and, after the
label's whitespace run, a terminator — a `[`, the end of the string, or the
position just before a string-final newline — is reachable without crossing
a newline, the extracted value is the text from after the whitespace run up
to the first such terminator, whitespace-trimmed; when the label occurs
nowhere the field is `None`.  (Python's `$` without `re.MULTILINE` does not
match at inner line ends, so a date line without `[` in mid-file yields
`None` — see the counterexample.) -/
theorem c8_release_date (raw : List Char) :
    (∀ i p, findSub rdLabel raw = some i →
      rdStart raw i < p →
      (∀ q, q < p → rdStart raw i ≤ q →
        q < raw.length ∧ raw.getD q ' ' ≠ '\n') →
      isStop raw p = true →
      (∀ q, q < p → rdStart raw i < q → isStop raw q = false) →
      extract_release_date raw =
        some (pyStrip (pySlice raw (rdStart raw i) p))) ∧
    (findSub rdLabel raw = none → extract_release_date raw = none) := by
  constructor
  · intro i p hfind hlt hclear hstop hmin
    obtain ⟨hpre, hbefore⟩ := findSub_spec rdLabel raw hfind
    have hplen : p ≤ raw.length := isStop_le hstop
    have hlab : rdLabel.length = 13 := rfl
    have hilen : i + 13 ≤ raw.length := by
      have hlen := isPrefixOf_length_le hpre
      rw [List.length_drop] at hlen
      omega
    have hscan : scanStop raw (rdStart raw i)
        (raw.length + 1 - rdStart raw i) = some p :=
      scanStop_reaches raw p (raw.length + 1 - rdStart raw i) (rdStart raw i)
        hlt (by omega) (fun q hq1 hq2 => hclear q hq1 hq2) hstop
        (fun q hq1 hq2 => hmin q hq1 hq2)
    have hmatch := matchRDAt_eq raw i p hpre hscan
    have hnone : ∀ k, 0 ≤ k → k < i → matchRDAt raw k = none :=
      fun k _ hk => matchRDAt_none raw k (hbefore k hk)
    simp only [extract_release_date]
    rw [searchPat_finds (matchRDAt raw) i _ (raw.length + 1) 0
      (by omega) (by omega) hnone hmatch]
    rfl
  · intro hf
    have hnone : ∀ k, matchRDAt raw k = none :=
      fun k => matchRDAt_none raw k (findSub_none rdLabel raw hf k)
    simp only [extract_release_date]
    rw [searchPat_none (matchRDAt raw) hnone (raw.length + 1) 0]
    rfl

/-- C8 counterexample input: a release-date line without a bracket followed
by further lines. -/
def c8CounterRaw : List Char :=
  "Release date: March 1, 2021\nLanguage: English\n".toList

/-- C8 counterexample: the code extracts nothing (Python `$` does not match
at the inner line end), while the claim's "stop at the first `[` or at the
end of that line" wording yields the date text. -/
theorem c8_counterexample :
    extract_release_date c8CounterRaw = none ∧
    release_date_per_claim c8CounterRaw = some "March 1, 2021".toList := by
  refine ⟨by decide, by decide⟩

/-- C8 witness input: a release-date line with a bracketed annotation. -/
def c8WitnessRaw : List Char := "Release date: May 1 [x]\n".toList

/-- C8 witness: the amended theorem applied to the bracketed header. -/
theorem c8_witness : extract_release_date c8WitnessRaw = some "May 1".toList := by
  have h := (c8_release_date c8WitnessRaw).1 0 20 (by decide) (by decide)
    (by decide) (by decide) (by decide)
  rw [h]
  decide
